import Mathlib

/-!
Verification of the osmium PBF streaming pipeline against its specification.

The definitions below are a shallow embedding of the C++ sources:

* `SortedQueue`      — include/osmium/thread/sorted_queue.hpp
* `runEvents` etc.   — include/osmium/io/pbf_input.hpp (PBFInput)
* `add_tags` etc.    — include/osmium/io/pbf_input.hpp (PBFPrimitiveBlockParser)
* `blob_decode`      — include/osmium/io/pbf_input.hpp (BlobParser)
* `apply_required_features` — include/osmium/io/pbf_input.hpp (HeaderBlobParser)
* `Writer.write` / `Writer.close` — include/osmium/io/writer.hpp
-/

set_option linter.unusedSectionVars false

namespace Osmium

/-- One state of `osmium::thread::SortedQueue<T>` (sorted_queue.hpp):
`queue` models the deque `m_queue`, `offset` the member `m_offset` (the
sequence number of the logical front slot).  The mutex and condition
variable only coordinate threads and carry no data, so they do not appear
in the state. -/
structure SortedQueue (T : Type) where
  queue : List T
  offset : Nat
deriving DecidableEq

namespace SortedQueue

variable {T : Type} [DecidableEq T] [Inhabited T]

/-- Constructor `SortedQueue() : m_queue(1), m_offset(0)` — the deque starts
with one default-constructed (sentinel) slot. -/
def init : SortedQueue T := ⟨[default], 0⟩

/-- `empty_intern()`: `m_queue.front() == T()`.  Calling `front` on an empty
deque is undefined behaviour in C++; the model reads the sentinel there,
and the reachability invariant proved for claim C10 shows the deque is
never empty in any reachable state. -/
def empty_intern (s : SortedQueue T) : Bool :=
  decide (s.queue.headD default = default)

/-- `push(value, num)`: the source computes `num -= m_offset` on the
unsigned `size_type` (callers always push numbers that have not been
popped yet, so `num ≥ m_offset`; the model uses truncated `Nat`
subtraction which agrees on that domain), resizes the deque with
default-filled slots to `num + 2` whenever `size() <= num + 1`, and then
assigns slot `num`. -/
def push (s : SortedQueue T) (value : T) (num : Nat) : SortedQueue T :=
  ⟨(if s.queue.length ≤ (num - s.offset) + 1
      then s.queue ++ List.replicate ((num - s.offset) + 2 - s.queue.length) default
      else s.queue).set (num - s.offset) value,
   s.offset⟩

/-- `try_pop(value)`: if the front slot holds the sentinel, fail; otherwise
move the front element out, `pop_front` the deque and increment
`m_offset`. -/
def try_pop (s : SortedQueue T) : Option (T × SortedQueue T) :=
  if s.empty_intern then none
  else some (s.queue.headD default, ⟨s.queue.tail, s.offset + 1⟩)

/-- `wait_and_pop(value)` blocks until `empty_intern()` is false and then
performs exactly the pop of `try_pop`.  The function gives the result of
the pop; its statements carry the non-empty precondition. -/
def wait_and_pop (s : SortedQueue T) : T × SortedQueue T :=
  (s.queue.headD default, ⟨s.queue.tail, s.offset + 1⟩)

/-- `empty()` takes the lock and returns `empty_intern()`. -/
def empty (s : SortedQueue T) : Bool := s.empty_intern

/-- `size()` returns `m_queue.size()`, the number of allocated slots. -/
def size (s : SortedQueue T) : Nat := s.queue.length

/-- Abstraction relation: the queue state holds the partial map `f` from
sequence numbers to values.  Numbers below `offset` have already been
handed out; for `n ≥ offset`, slot `n - offset` holds the value `f n`,
with the default-constructed sentinel standing for an unfilled slot. -/
def models (f : Nat → Option T) (s : SortedQueue T) : Prop :=
  (∀ n, n < s.offset → f n ≠ none) ∧
  (∀ n, f n ≠ some default) ∧
  (∀ n, s.offset ≤ n →
    s.queue.getD (n - s.offset) default = (f n).getD default)

/-- States reachable from the freshly constructed queue by any interleaving
of pushes (each sequence number delivered at most once, pushed values
never equal to the default sentinel, as the contract requires) and
successful pops.  `f` records the values delivered so far, keyed by
sequence number. -/
inductive Reach : (Nat → Option T) → SortedQueue T → Prop
  | base : Reach (fun _ => none) init
  | step_push {f s n v} : Reach f s → f n = none → v ≠ default →
      Reach (fun m => if m = n then some v else f m) (s.push v n)
  | step_pop {f s v s'} : Reach f s → s.try_pop = some (v, s') → Reach f s'

end SortedQueue

/-- Events of the reader pipeline as seen by the reorder queue: a decoder
worker delivering the Buffer for data blob `n` (DataBlobParser::handle_blob
calls `m_queue.push(buffer, m_blob_num)`), or the consumer popping the next
Buffer (PBFInput::next_buffer → wait_and_pop). -/
inductive Ev where
  | push (n : Nat)
  | pop
deriving DecidableEq

/-- Sequence numbers delivered by the push events of a schedule, in
delivery order. -/
def pushNums : List Ev → List Nat
  | [] => []
  | Ev.push n :: evs => n :: pushNums evs
  | Ev.pop :: evs => pushNums evs

/-- Run a schedule of deliveries and pops against the reorder queue.
`buf n` is the Buffer decoded from data blob `n`.  A pop at a state whose
front slot is unfilled is a `wait_and_pop` that still blocks; such a
schedule is not a completed execution, so the run fails. -/
def runEvents {T : Type} [DecidableEq T] [Inhabited T] (buf : Nat → T) :
    List Ev → SortedQueue T → Option (SortedQueue T × List T)
  | [], s => some (s, [])
  | Ev.push n :: evs, s => runEvents buf evs (s.push (buf n) n)
  | Ev.pop :: evs, s =>
    match s.try_pop with
    | none => none
    | some (v, s1) =>
      match runEvents buf evs s1 with
      | none => none
      | some (s2, out) => some (s2, v :: out)

/-- The numbering loop of PBFInput::parse_osm_data: `n` starts at 0 and is
stamped on each successive OSMData blob, incrementing once per blob.
`parse_loop_nums k n` lists the numbers assigned while `k` blobs remain
and the counter stands at `n`. -/
def parse_loop_nums : Nat → Nat → List Nat
  | 0, _ => []
  | k + 1, n => n :: parse_loop_nums k (n + 1)

/-- Sequence numbers parse_osm_data assigns to a file with `blobs` OSMData
blobs, in file order. -/
def parse_osm_data_nums (blobs : Nat) : List Nat := parse_loop_nums blobs 0

/-- PBFInput::next_buffer: while the reader is not done or jobs are
pending, block in wait_and_pop and decrement the pending count; once done
with nothing pending, hand back a default-constructed (empty) Buffer. -/
def next_buffer {T : Type} [DecidableEq T] [Inhabited T]
    (done : Bool) (pending : Nat) (s : SortedQueue T) : T × Nat × SortedQueue T :=
  if !done || pending != 0 then
    ((s.wait_and_pop).1, pending - 1, (s.wait_and_pop).2)
  else (default, pending, s)

/-- The `while` loop of PBFPrimitiveBlockParser::add_tags, entered after
the tag-list builder was created: read the key index at the cursor and
advance; a 0 key is the sentinel ending this node's tags (the cursor stays
past it); otherwise pair the key with the value index at the next position
and continue.  The C++ reads `keys_vals(n)` through protobuf, which aborts
out of range; `getD _ 0` never falls back to its default on inputs where
every node's tag run is 0-terminated. -/
def add_tags_loop (kv : List Int) (n : Nat) (acc : List (Int × Int)) :
    List (Int × Int) × Nat :=
  if h : n < kv.length then
    if kv.getD n 0 = 0 then (acc, n + 1)
    else add_tags_loop kv (n + 2) (acc ++ [(kv.getD n 0, kv.getD (n + 1) 0)])
  else (acc, n)
termination_by kv.length - n
decreasing_by omega

/-- PBFPrimitiveBlockParser::add_tags: with the cursor at or past the end
of keys_vals the node gets no tags and the cursor stays; a 0 at the cursor
means no tags for this node and the cursor moves past the sentinel; else
decode (key,value) index pairs until the sentinel. -/
def add_tags (kv : List Int) (n : Nat) : List (Int × Int) × Nat :=
  if kv.length ≤ n then ([], n)
  else if kv.getD n 0 = 0 then ([], n + 1)
  else add_tags_loop kv n []

/-- The dense-node tag decode of parse_dense_node_group: one cursor
(`last_dense_tag`, starting at 0) is threaded through add_tags across all
nodes of the group in order. -/
def dense_tags (kv : List Int) : Nat → Nat → List (List (Int × Int))
  | 0, _ => []
  | i + 1, cursor =>
    (add_tags kv cursor).1 :: dense_tags kv i (add_tags kv cursor).2

/-- Stringtable lookup applied to decoded (key,value) index pairs, as
add_tag receives them through `m_stringtable->s(...)`. -/
def tag_strings (st : List String) (tags : List (Int × Int)) : List (String × String) :=
  tags.map (fun p => (st.getD p.1.toNat "", st.getD p.2.toNat ""))

/-- OSMPBF::lonlat_resolution (nanodegree resolution, 10^9). -/
def lonlat_resolution : Int := 1000000000

/-- osmium::Location::coordinate_precision (10^7). -/
def coordinate_precision : Int := 10000000

/-- The Info message of a plain node/way/relation as the decoder reads it;
`visible = some b` models `has_visible()` true with value `b`, `none`
models an absent field. -/
structure PbfInfo where
  version : Int
  changeset : Int
  timestamp : Int
  uid : Int
  user_sid : Nat
  visible : Option Bool
deriving DecidableEq

/-- Visible flag stored for a plain entity by parse_node_group (the
way/relation code is identical): with an info block, the `visible` field
if present, else an explicit `visible(true)`; without an info block the
builder-made object keeps its construction default.  Modelled from the
spec: the OSMObject default (osmium/osm/object.hpp is not part of src/)
is visible = true ("Info block absent ⇒ ... visible=true"). -/
def decoded_visible (info : Option PbfInfo) : Bool :=
  match info with
  | some inf => inf.visible.getD true
  | none => true

/-- Coordinate normalisation `(raw * granularity + offset) /
(lonlat_resolution / coordinate_precision)` with C++ (truncating) integer
division. -/
def coordinate (granularity offset raw : Int) : Int :=
  Int.tdiv (raw * granularity + offset) (Int.tdiv lonlat_resolution coordinate_precision)

/-- Location stored for a plain node: parse_node_group sets it from the
PBF coordinates only when the decoded node is visible.  Modelled from the
spec: a Location never set keeps the "undefined" sentinel
(osmium/osm/location.hpp is not part of src/), rendered here as `none`. -/
def decoded_node_location (info : Option PbfInfo)
    (granularity lon_offset lat_offset lon lat : Int) : Option (Int × Int) :=
  if decoded_visible info then
    some (coordinate granularity lon_offset lon, coordinate granularity lat_offset lat)
  else none

/-- The column of a DenseInfo block used by the visibility logic; the whole
`visible` column is optional (`visible_size() > 0` iff it is nonempty). -/
structure DenseInfoCols where
  visible : List Bool
deriving DecidableEq

/-- Visible flag of dense node `i` in parse_dense_node_group: starts true,
overwritten with `denseinfo().visible(i)` only when the group has a
denseinfo block whose visible column is nonempty. -/
def dense_visible (denseinfo : Option DenseInfoCols) (i : Nat) : Bool :=
  match denseinfo with
  | some di => if 0 < di.visible.length then di.visible.getD i true else true
  | none => true

/-- Location stored for dense node `i`: set from the delta-decoded PBF
coordinates only when the node is visible, else left undefined (`none`). -/
def dense_node_location (denseinfo : Option DenseInfoCols) (i : Nat)
    (granularity lon_offset lat_offset lon lat : Int) : Option (Int × Int) :=
  if dense_visible denseinfo i then
    some (coordinate granularity lon_offset lon, coordinate granularity lat_offset lat)
  else none

/-- `m_date_factor = pbf_primitive_block.date_granularity() / 1000` with
C++ (truncating) integer division. -/
def date_factor (date_granularity : Int) : Int := Int.tdiv date_granularity 1000

/-- Timestamp stored for every decoded entity (plain node/way/relation and
the dense running sum alike): `pbf_timestamp * m_date_factor`. -/
def decode_timestamp (date_granularity pbf_timestamp : Int) : Int :=
  pbf_timestamp * date_factor date_granularity

/-- A protobuf Blob payload as BlobParser::operator() inspects it:
`has_raw`, `has_zlib_data` (with `raw_size`), `has_lzma_data`. -/
structure Blob where
  raw : Option (List Nat)
  zlib_data : Option (List Nat)
  raw_size : Int
  lzma_data : Option (List Nat)
deriving DecidableEq

/-- The runtime errors BlobParser::operator() can throw: "zlib error"
(uncompress failed or the inflated size differs from raw_size), "lzma
blobs not implemented", "Blob contains no data". -/
inductive BlobError where
  | zlibError
  | lzmaUnsupported
  | noData
deriving DecidableEq

/-- BlobParser::operator() after protobuf parsing: raw bytes pass through
to handle_blob unchanged; zlib data is inflated (the `inflate` oracle
stands for zlib's `uncompress`; `none` is any failure, and an inflated
size above raw_size makes uncompress itself fail with Z_BUF_ERROR, caught
here by the same length check) and must measure exactly `raw_size`; lzma
is rejected; a blob carrying none of the three is rejected.  An
`Except.error` never reaches handle_blob, so no Buffer is produced for
that blob. -/
def blob_decode (inflate : List Nat → Option (List Nat)) (b : Blob) :
    Except BlobError (List Nat) :=
  match b.raw with
  | some data => Except.ok data
  | none =>
    match b.zlib_data with
    | some z =>
      match inflate z with
      | some d =>
        if (d.length : Int) = b.raw_size then Except.ok d
        else Except.error BlobError.zlibError
      | none => Except.error BlobError.zlibError
    | none =>
      match b.lzma_data with
      | some _ => Except.error BlobError.lzmaUnsupported
      | none => Except.error BlobError.noData

/-- The two header flags HeaderBlobParser::handle_blob can set on the
osmium::io::Header (io/header.hpp). -/
structure Header where
  pbf_has_dense_nodes : Bool
  has_multiple_object_versions : Bool
deriving DecidableEq

/-- The required_features loop of HeaderBlobParser::handle_blob:
"OsmSchema-V0.6" is accepted with no effect, "DenseNodes" sets
pbf_has_dense_nodes, "HistoricalInformation" sets
has_multiple_object_versions, and any other feature throws ("Required
feature not supported"), in which case no Header reaches the caller. -/
def apply_required_features : List String → Header → Except String Header
  | [], h => Except.ok h
  | feature :: rest, h =>
    if feature = "OsmSchema-V0.6" then apply_required_features rest h
    else if feature = "DenseNodes" then
      apply_required_features rest { h with pbf_has_dense_nodes := true }
    else if feature = "HistoricalInformation" then
      apply_required_features rest { h with has_multiple_object_versions := true }
    else Except.error feature

/-- The three required features HeaderBlobParser accepts. -/
def supported_features : List String :=
  ["OsmSchema-V0.6", "DenseNodes", "HistoricalInformation"]

/-- Writer status enum (io/writer.hpp). -/
inductive WStatus where
  | okay
  | error
  | closed
deriving DecidableEq

/-- Errors surfaced by Writer::write and Writer::close; `alreadyFailed` is
the io_error thrown for a write attempted in status closed or error. -/
inductive WriteError where
  | alreadyFailed
  | outputFailed
deriving DecidableEq

/-- A Writer's state: its status, the committed byte count of the internal
m_buffer, and the buffers already handed to the output stage (recorded by
their committed sizes). -/
structure WriterState where
  status : WStatus
  pending : Nat
  written : List Nat
deriving DecidableEq

/-- Writer::write(Buffer&&): refuse with an io_error when not in status
okay (the state is untouched); otherwise forward the buffer when it has
committed data.  `ok` is the oracle for check_for_exception/write_buffer
succeeding; on failure the status flips to error and the exception
propagates, with nothing written. -/
def writer_write (s : WriterState) (committed : Nat) (ok : Bool) :
    WriterState × Option WriteError :=
  if s.status ≠ WStatus.okay then (s, some WriteError.alreadyFailed)
  else if ok then
    (if 0 < committed then { s with written := s.written ++ [committed] } else s, none)
  else ({ s with status := WStatus.error }, some WriteError.outputFailed)

/-- Writer::close(): in status okay, flush the internal buffer through
write (a failure there sets status error and rethrows before `closed` is
reached), then mark closed; in any other status only the end-of-data
marker is queued and the status is untouched. -/
def writer_close (s : WriterState) (ok : Bool) : WriterState × Option WriteError :=
  if s.status = WStatus.okay then
    if 0 < s.pending then
      if ok then
        ({ s with pending := 0, written := s.written ++ [s.pending], status := WStatus.closed }, none)
      else ({ s with status := WStatus.error }, some WriteError.outputFailed)
    else ({ s with status := WStatus.closed }, none)
  else (s, none)

section ListHelpers

variable {α : Type}

lemma headD_eq_getD (l : List α) (d : α) : l.headD d = l.getD 0 d := by
  cases l <;> rfl

lemma getD_tail (l : List α) (n : Nat) (d : α) :
    l.tail.getD n d = l.getD (n + 1) d := by
  cases l <;> rfl

lemma getD_set (l : List α) (i j : Nat) (v d : α) :
    (l.set i v).getD j d =
      if i = j ∧ i < l.length then v else l.getD j d := by
  induction l generalizing i j with
  | nil => simp [List.getD]
  | cons x xs ih =>
    cases i with
    | zero =>
      cases j with
      | zero => simp [List.getD]
      | succ j => simp [List.getD]
    | succ i =>
      cases j with
      | zero => simp [List.getD]
      | succ j =>
        simp only [List.set, List.getD_cons_succ, ih, List.length_cons]
        split_ifs with h1 h2 <;> first | rfl | omega

lemma getD_append (l l' : List α) (n : Nat) (d : α) :
    (l ++ l').getD n d =
      if n < l.length then l.getD n d else l'.getD (n - l.length) d := by
  induction l generalizing n with
  | nil => simp [List.getD]
  | cons x xs ih =>
    cases n with
    | zero => simp [List.getD]
    | succ n =>
      simp only [List.cons_append, List.getD_cons_succ, ih, List.length_cons]
      split_ifs with h1 h2 <;> first | rfl | omega | (congr 1; omega)

lemma getD_replicate_self (k n : Nat) (d : α) :
    (List.replicate k d).getD n d = d := by
  induction k generalizing n with
  | zero => simp [List.getD]
  | succ k ih =>
    cases n with
    | zero => simp [List.replicate, List.getD]
    | succ n => simp [List.replicate, List.getD, ih n]

lemma getD_singleton (a d : α) (n : Nat) : ([a] : List α).getD n d = if n = 0 then a else d := by
  cases n <;> simp [List.getD]

lemma getD_eq_default_of_le (l : List α) (d : α) {n : Nat} (h : l.length ≤ n) :
    l.getD n d = d := by
  induction l generalizing n with
  | nil => rfl
  | cons x xs ih =>
    cases n with
    | zero => simp at h
    | succ n => exact ih (by simpa using h)

end ListHelpers

namespace SortedQueue

variable {T : Type} [DecidableEq T] [Inhabited T]

lemma push_offset (s : SortedQueue T) (v : T) (num : Nat) :
    (s.push v num).offset = s.offset := rfl

lemma push_length (s : SortedQueue T) (v : T) (num : Nat) :
    (s.push v num).queue.length =
      if s.queue.length ≤ (num - s.offset) + 1
        then (num - s.offset) + 2 else s.queue.length := by
  show ((if s.queue.length ≤ (num - s.offset) + 1
      then s.queue ++ List.replicate ((num - s.offset) + 2 - s.queue.length) default
      else s.queue).set (num - s.offset) v).length = _
  split <;> rename_i h <;> simp only [List.length_set, List.length_append,
    List.length_replicate] <;> omega

/-- Slot contents after a `push`: slot `num - offset` now holds the pushed
value and every other slot is unchanged (unfilled slots beyond the old
length read as the sentinel both before and after the resize). -/
lemma push_getD (s : SortedQueue T) (v : T) (num j : Nat) :
    (s.push v num).queue.getD j default =
      if j = num - s.offset then v else s.queue.getD j default := by
  show ((if s.queue.length ≤ (num - s.offset) + 1
      then s.queue ++ List.replicate ((num - s.offset) + 2 - s.queue.length) default
      else s.queue).set (num - s.offset) v).getD j default = _
  split <;> rename_i hresize <;> rw [getD_set] <;>
    by_cases hj : num - s.offset = j
  · subst hj
    rw [if_pos ⟨rfl, by
      simp only [List.length_append, List.length_replicate]; omega⟩, if_pos rfl]
  · rw [if_neg (fun h => hj h.1), if_neg (fun h => hj h.symm)]
    rw [getD_append, getD_replicate_self]
    split
    · rfl
    · rename_i hge
      exact (getD_eq_default_of_le s.queue default (by omega)).symm
  · subst hj
    rw [if_pos ⟨rfl, by omega⟩, if_pos rfl]
  · rw [if_neg (fun h => hj h.1), if_neg (fun h => hj h.symm)]

lemma models_offset_le {f : Nat → Option T} {s : SortedQueue T} (hm : models f s)
    {n : Nat} (hn : f n = none) : s.offset ≤ n := by
  by_contra h
  exact hm.1 n (by omega) hn

/-- `push` preserves the abstraction relation when the pushed number is
fresh and the value is not the sentinel. -/
lemma models_push {f : Nat → Option T} {s : SortedQueue T} (hm : models f s)
    {n : Nat} {v : T} (hn : f n = none) (hv : v ≠ default) :
    models (fun m => if m = n then some v else f m) (s.push v n) := by
  have hoff : s.offset ≤ n := models_offset_le hm hn
  refine ⟨?_, ?_, ?_⟩
  · intro m hmlt
    rw [push_offset] at hmlt
    have hne : m ≠ n := by omega
    simp only [if_neg hne]
    exact hm.1 m hmlt
  · intro m
    by_cases hmn : m = n
    · subst hmn
      simp only [if_pos rfl]
      exact fun h => hv (Option.some.inj h)
    · simp only [if_neg hmn]
      exact hm.2.1 m
  · intro m hmge
    rw [push_offset] at hmge ⊢
    show (s.push v n).queue.getD (m - s.offset) default =
      (if m = n then some v else f m).getD default
    by_cases hmn : m = n
    · subst hmn
      rw [if_pos rfl, push_getD, if_pos rfl]
      rfl
    · rw [if_neg hmn]
      have hne : m - s.offset ≠ n - s.offset := by omega
      rw [push_getD, if_neg hne]
      exact hm.2.2 m hmge

/-- Characterisation of a successful `try_pop`: it returns exactly the
value the abstraction maps to the current front offset, drops the front
slot and advances the offset by one, preserving the abstraction. -/
lemma models_try_pop {f : Nat → Option T} {s : SortedQueue T} (hm : models f s)
    {v : T} {s' : SortedQueue T} (hp : s.try_pop = some (v, s')) :
    f s.offset = some v ∧ s' = ⟨s.queue.tail, s.offset + 1⟩ ∧ models f s' := by
  unfold try_pop at hp
  split at hp
  · exact absurd hp (by simp)
  · rename_i hne
    have hhead : ¬ s.queue.headD default = default := by
      simpa [empty_intern] using hne
    injection hp with hp
    injection hp with hp1 hp2
    have hslot : s.queue.getD 0 default = (f s.offset).getD default := by
      have := hm.2.2 s.offset (le_refl _)
      simpa using this
    have hfoff : f s.offset = some v := by
      cases hf : f s.offset with
      | none =>
        rw [hf] at hslot
        rw [headD_eq_getD] at hhead
        exact absurd hslot hhead
      | some w =>
        rw [hf] at hslot
        rw [← hp1, headD_eq_getD, hslot]
        rfl
    refine ⟨hfoff, hp2.symm, ?_⟩
    subst hp2
    refine ⟨?_, hm.2.1, ?_⟩
    · intro m hmlt
      change m < s.offset + 1 at hmlt
      by_cases hmo : m = s.offset
      · subst hmo
        rw [hfoff]
        exact fun h => by cases h
      · exact hm.1 m (by omega)
    · intro m hmge
      change s.offset + 1 ≤ m at hmge
      show s.queue.tail.getD (m - (s.offset + 1)) default = (f m).getD default
      rw [getD_tail]
      have hsub : m - (s.offset + 1) + 1 = m - s.offset := by omega
      rw [hsub]
      exact hm.2.2 m (by omega)

/-- Every reachable state satisfies the abstraction relation. -/
lemma reach_models {f : Nat → Option T} {s : SortedQueue T} (h : Reach f s) :
    models f s := by
  induction h with
  | base =>
    refine ⟨?_, ?_, ?_⟩
    · intro n hn
      exact absurd hn (by simp [init])
    · intro n
      exact fun h => by cases h
    · intro n _
      show ([default] : List T).getD (n - 0) default = (none : Option T).getD default
      rw [getD_singleton]
      split <;> rfl
  | step_push _ hn hv ih => exact models_push ih hn hv
  | step_pop _ hp ih => exact (models_try_pop ih hp).2.2

lemma try_pop_eq (s : SortedQueue T) (h : s.empty_intern = false) :
    s.try_pop = some (s.queue.headD default, ⟨s.queue.tail, s.offset + 1⟩) := by
  unfold try_pop
  rw [h]
  simp

/-- Inductive invariant behind claim C10: the deque of a reachable state is
never empty, and its final slot always holds the sentinel (the constructor
makes one sentinel slot; a resize to `num + 2` leaves a spare slot past the
assigned index; a pop requires a non-sentinel front, which the spare slot
can never be). -/
lemma reach_spare {f : Nat → Option T} {s : SortedQueue T} (h : Reach f s) :
    0 < s.queue.length ∧ s.queue.getD (s.queue.length - 1) default = default := by
  induction h with
  | base => exact ⟨by simp [init], rfl⟩
  | step_push h hn hv ih =>
    rename_i f s n v
    have hoff : s.offset ≤ n := models_offset_le (reach_models h) hn
    by_cases hres : s.queue.length ≤ (n - s.offset) + 1
    · have hL : (s.push v n).queue.length = (n - s.offset) + 2 := by
        rw [push_length, if_pos hres]
      refine ⟨by omega, ?_⟩
      rw [hL, push_getD, if_neg (by omega)]
      exact getD_eq_default_of_le _ _ (by omega)
    · have hL : (s.push v n).queue.length = s.queue.length := by
        rw [push_length, if_neg hres]
      refine ⟨by omega, ?_⟩
      rw [hL, push_getD, if_neg (by omega)]
      exact ih.2
  | step_pop h hp ih =>
    rename_i f s v s'
    obtain ⟨hpos, hlast⟩ := ih
    unfold try_pop at hp
    split at hp
    · cases hp
    · rename_i hne
      have hhead : ¬ s.queue.headD default = default := by
        simpa [empty_intern] using hne
      injection hp with hp
      injection hp with hp1 hp2
      have hlen2 : 2 ≤ s.queue.length := by
        by_contra hlt
        have h1 : s.queue.length = 1 := by omega
        rw [headD_eq_getD] at hhead
        rw [h1] at hlast
        exact hhead (by simpa using hlast)
      subst hp2
      constructor
      · show 0 < s.queue.tail.length
        rw [List.length_tail]
        omega
      · show s.queue.tail.getD (s.queue.tail.length - 1) default = default
        rw [List.length_tail, getD_tail]
        have harith : s.queue.length - 1 - 1 + 1 = s.queue.length - 1 := by omega
        rw [harith]
        exact hlast

end SortedQueue

section RunLemmas

open SortedQueue

variable {T : Type} [DecidableEq T] [Inhabited T]

lemma parse_loop_nums_eq_range (k n : Nat) :
    parse_loop_nums k n = (List.range k).map (fun i => n + i) := by
  induction k generalizing n with
  | zero => rfl
  | succ k ih =>
    rw [parse_loop_nums, ih, List.range_succ_eq_map, List.map_cons, List.map_map]
    refine congrArg₂ _ (by simp) ?_
    refine List.map_congr_left fun i _ => ?_
    show n + 1 + i = n + (i + 1)
    omega

lemma parse_osm_data_nums_eq_range (blobs : Nat) :
    parse_osm_data_nums blobs = List.range blobs := by
  rw [parse_osm_data_nums, parse_loop_nums_eq_range]
  simp

lemma range_map_shift (buf : Nat → T) (off k : Nat) :
    (List.range (k + 1)).map (fun i => buf (off + i)) =
      buf off :: (List.range k).map (fun i => buf (off + 1 + i)) := by
  rw [List.range_succ_eq_map, List.map_cons, List.map_map]
  refine congrArg₂ _ (by simp) ?_
  refine List.map_congr_left fun i _ => ?_
  show buf (off + (i + 1)) = buf (off + 1 + i)
  congr 1
  omega

/-- Soundness of any completed schedule against the reorder queue: whatever
the delivery interleaving (each sequence number delivered once, no value
equal to the sentinel), the pops that completed handed out the values of
consecutive sequence numbers starting at the initial front offset. -/
lemma runEvents_sound (buf : Nat → T) :
    ∀ (evs : List Ev) (f : Nat → Option T) (s s' : SortedQueue T) (out : List T),
      Reach f s →
      (∀ m v, f m = some v → v = buf m) →
      (pushNums evs).Nodup →
      (∀ n ∈ pushNums evs, f n = none ∧ buf n ≠ default) →
      runEvents buf evs s = some (s', out) →
      out = (List.range out.length).map (fun i => buf (s.offset + i)) ∧
        s'.offset = s.offset + out.length := by
  intro evs
  induction evs with
  | nil =>
    intro f s s' out h hagree hnd hfresh hrun
    rw [runEvents] at hrun
    injection hrun with hrun
    injection hrun with h1 h2
    subst h1
    subst h2
    simp
  | cons e evs ih =>
    intro f s s' out h hagree hnd hfresh hrun
    cases e with
    | push n =>
      rw [runEvents] at hrun
      rw [pushNums] at hnd hfresh
      have hn : f n = none := (hfresh n (List.mem_cons_self n _)).1
      have hv : buf n ≠ default := (hfresh n (List.mem_cons_self n _)).2
      have h1 : Reach (fun m => if m = n then some (buf n) else f m) (s.push (buf n) n) :=
        Reach.step_push h hn hv
      have hagree1 : ∀ m v, (if m = n then some (buf n) else f m) = some v → v = buf m := by
        intro m v hm
        by_cases hmn : m = n
        · subst hmn
          rw [if_pos rfl] at hm
          exact (Option.some.inj hm).symm
        · rw [if_neg hmn] at hm
          exact hagree m v hm
      have hfresh1 : ∀ m ∈ pushNums evs, (if m = n then some (buf n) else f m) = none ∧
          buf m ≠ default := by
        intro m hm
        have hmn : m ≠ n := fun he => (List.nodup_cons.mp hnd).1 (he ▸ hm)
        rw [if_neg hmn]
        exact hfresh m (List.mem_cons_of_mem _ hm)
      have := ih _ _ _ _ h1 hagree1 (List.nodup_cons.mp hnd).2 hfresh1 hrun
      rwa [push_offset] at this
    | pop =>
      rw [runEvents] at hrun
      cases htp : s.try_pop with
      | none =>
        rw [htp] at hrun
        cases hrun
      | some p =>
        obtain ⟨v, s1⟩ := p
        rw [htp] at hrun
        dsimp only at hrun
        cases hrun1 : runEvents buf evs s1 with
        | none =>
          rw [hrun1] at hrun
          cases hrun
        | some q =>
          obtain ⟨s2, out2⟩ := q
          rw [hrun1] at hrun
          dsimp only at hrun
          injection hrun with hrun
          injection hrun with h1 h2
          subst h1
          subst h2
          obtain ⟨hfoff, hs1, _⟩ := models_try_pop (reach_models h) htp
          have h1 : Reach f s1 := Reach.step_pop h htp
          have hveq : v = buf s.offset := hagree _ _ hfoff
          have hoff1 : s1.offset = s.offset + 1 := by rw [hs1]
          have := ih _ _ _ _ h1 hagree hnd hfresh hrun1
          obtain ⟨hout2, hoff2⟩ := this
          constructor
          · rw [List.length_cons, range_map_shift, hveq]
            refine congrArg₂ _ rfl ?_
            rw [hoff1] at hout2
            exact hout2
          · rw [hoff2, hoff1, List.length_cons]
            omega

/-- Pushing any list of fresh sequence numbers in any order always
succeeds, produces no output, keeps the offset, and leaves the queue
holding exactly the old map overridden on the delivered numbers. -/
lemma runEvents_pushes (buf : Nat → T) :
    ∀ (order : List Nat) (f : Nat → Option T) (s : SortedQueue T),
      Reach f s → order.Nodup →
      (∀ n ∈ order, f n = none ∧ buf n ≠ default) →
      ∃ (f' : Nat → Option T) (s' : SortedQueue T),
        runEvents buf (order.map Ev.push) s = some (s', []) ∧
        Reach f' s' ∧ s'.offset = s.offset ∧
        (∀ m, f' m = if m ∈ order then some (buf m) else f m) := by
  intro order
  induction order with
  | nil =>
    intro f s h _ _
    exact ⟨f, s, rfl, h, rfl, fun m => by simp⟩
  | cons n rest ih =>
    intro f s h hnd hfresh
    have hn : f n = none := (hfresh n (List.mem_cons_self n _)).1
    have hv : buf n ≠ default := (hfresh n (List.mem_cons_self n _)).2
    have h1 : Reach (fun m => if m = n then some (buf n) else f m) (s.push (buf n) n) :=
      Reach.step_push h hn hv
    have hfresh1 : ∀ m ∈ rest, (if m = n then some (buf n) else f m) = none ∧
        buf m ≠ default := by
      intro m hm
      have hmn : m ≠ n := fun he => (List.nodup_cons.mp hnd).1 (he ▸ hm)
      rw [if_neg hmn]
      exact hfresh m (List.mem_cons_of_mem _ hm)
    obtain ⟨f', s', hrun, hreach, hoff, hmap⟩ :=
      ih _ _ h1 (List.nodup_cons.mp hnd).2 hfresh1
    refine ⟨f', s', ?_, hreach, by rw [hoff, push_offset], ?_⟩
    · rw [List.map_cons, runEvents, hrun]
    · intro m
      rw [hmap m]
      by_cases hmr : m ∈ rest
      · rw [if_pos hmr, if_pos (List.mem_cons_of_mem _ hmr)]
      · rw [if_neg hmr]
        by_cases hmn : m = n
        · subst hmn
          rw [if_pos rfl, if_pos (List.mem_cons_self m _)]
        · rw [if_neg hmn, if_neg (by simp [hmn, hmr])]

/-- When the values for the next `k` sequence numbers have all been
delivered, `k` pops all succeed and hand them out in ascending sequence
number order. -/
lemma runEvents_pops (buf : Nat → T) :
    ∀ (k : Nat) (f : Nat → Option T) (s : SortedQueue T),
      Reach f s →
      (∀ i, i < k → f (s.offset + i) = some (buf (s.offset + i))) →
      ∃ s' : SortedQueue T,
        runEvents buf (List.replicate k Ev.pop) s =
          some (s', (List.range k).map (fun i => buf (s.offset + i))) ∧
        Reach f s' ∧ s'.offset = s.offset + k := by
  intro k
  induction k with
  | zero =>
    intro f s h _
    exact ⟨s, by simp [runEvents], h, by simp⟩
  | succ k ih =>
    intro f s h hvals
    have hm := reach_models h
    have hfoff : f s.offset = some (buf s.offset) := by
      have := hvals 0 (Nat.succ_pos k)
      simpa using this
    have hslot : s.queue.getD 0 default = buf s.offset := by
      have := hm.2.2 s.offset (le_refl _)
      rw [Nat.sub_self] at this
      rw [this, hfoff]
      rfl
    have hnd : buf s.offset ≠ default := by
      intro hcon
      exact hm.2.1 s.offset (by rw [hfoff, hcon])
    have hne : s.empty_intern = false := by
      unfold empty_intern
      rw [headD_eq_getD, hslot]
      simp [hnd]
    have htp := try_pop_eq s hne
    have h1 : Reach f (⟨s.queue.tail, s.offset + 1⟩ : SortedQueue T) :=
      Reach.step_pop h htp
    have hvals1 : ∀ i, i < k →
        f ((⟨s.queue.tail, s.offset + 1⟩ : SortedQueue T).offset + i) =
          some (buf ((⟨s.queue.tail, s.offset + 1⟩ : SortedQueue T).offset + i)) := by
      intro i hi
      show f (s.offset + 1 + i) = some (buf (s.offset + 1 + i))
      have harith : s.offset + 1 + i = s.offset + (i + 1) := by omega
      rw [harith]
      exact hvals (i + 1) (by omega)
    obtain ⟨s', hrun, hreach', hoff'⟩ := ih f _ h1 hvals1
    have hheadv : s.queue.headD default = buf s.offset := by
      rw [headD_eq_getD, hslot]
    refine ⟨s', ?_, hreach', ?_⟩
    · rw [List.replicate_succ, runEvents, htp]
      dsimp only
      rw [hrun]
      dsimp only
      rw [range_map_shift, hheadv]
    · rw [hoff']
      show s.offset + 1 + k = s.offset + (k + 1)
      omega

/-- Sequencing of schedules. -/
lemma runEvents_append (buf : Nat → T) (evs1 evs2 : List Ev) (s : SortedQueue T)
    (s1 : SortedQueue T) (out1 : List T)
    (h1 : runEvents buf evs1 s = some (s1, out1))
    (s2 : SortedQueue T) (out2 : List T)
    (h2 : runEvents buf evs2 s1 = some (s2, out2)) :
    runEvents buf (evs1 ++ evs2) s = some (s2, out1 ++ out2) := by
  induction evs1 generalizing s out1 with
  | nil =>
    rw [runEvents] at h1
    injection h1 with h1
    injection h1 with ha hb
    subst ha
    subst hb
    simpa using h2
  | cons e evs ih =>
    cases e with
    | push n =>
      rw [runEvents] at h1
      rw [List.cons_append, runEvents]
      exact ih _ _ h1
    | pop =>
      rw [runEvents] at h1
      rw [List.cons_append, runEvents]
      cases htp : (s.try_pop : Option (T × SortedQueue T)) with
      | none =>
        rw [htp] at h1
        cases h1
      | some p =>
        obtain ⟨v, sm⟩ := p
        rw [htp] at h1
        dsimp only at h1
        cases hrun : runEvents buf evs sm with
        | none =>
          rw [hrun] at h1
          cases h1
        | some q =>
          obtain ⟨sq, outq⟩ := q
          rw [hrun] at h1
          dsimp only at h1
          injection h1 with h1
          injection h1 with ha hb
          subst ha
          subst hb
          dsimp only
          rw [ih _ _ hrun]
          exact rfl

end RunLemmas

section ClaimTheorems

open SortedQueue

/-- C1: with sequence numbers assigned monotonically (so each number is
delivered at most once and an already-popped number is never delivered
again), pushes arriving in any order, and no pushed value comparing equal
to a default-constructed T, every successful `try_pop` hands out exactly
the value delivered with the current front-offset number and advances the
offset by one; `wait_and_pop`, once unblocked, performs the same pop; and
over any completed schedule from a fresh queue the popped values are
exactly `buf 0, buf 1, ...` — strictly ascending sequence numbers from the
front offset, never the value for `n` before all smaller numbers were
popped. -/
theorem sorted_queue_delivers_in_ascending_order {T : Type} [DecidableEq T] [Inhabited T] :
    (∀ (f : Nat → Option T) (s : SortedQueue T) (v : T) (s' : SortedQueue T),
        Reach f s → s.try_pop = some (v, s') →
          f s.offset = some v ∧ s'.offset = s.offset + 1 ∧ Reach f s') ∧
    (∀ (f : Nat → Option T) (s : SortedQueue T),
        Reach f s → s.empty_intern = false →
          s.try_pop = some ((s.wait_and_pop).1, (s.wait_and_pop).2)) ∧
    (∀ (buf : Nat → T) (evs : List Ev) (s' : SortedQueue T) (out : List T),
        (pushNums evs).Nodup → (∀ n ∈ pushNums evs, buf n ≠ default) →
        runEvents buf evs SortedQueue.init = some (s', out) →
          out = (List.range out.length).map buf ∧ s'.offset = out.length) := by
  refine ⟨?_, ?_, ?_⟩
  · intro f s v s' h hp
    obtain ⟨hfoff, hs', _⟩ := models_try_pop (reach_models h) hp
    refine ⟨hfoff, ?_, Reach.step_pop h hp⟩
    rw [hs']
  · intro f s _ hne
    rw [try_pop_eq s hne]
    rfl
  · intro buf evs s' out hnd hbuf hrun
    obtain ⟨hout, hoff⟩ := runEvents_sound buf evs (fun _ => none) _ s' out
      Reach.base (fun m v h => by cases h) hnd (fun n hn => ⟨rfl, hbuf n hn⟩) hrun
    constructor
    · calc out = (List.range out.length).map
            (fun i => buf ((SortedQueue.init : SortedQueue T).offset + i)) := hout
        _ = (List.range out.length).map buf := by
            refine List.map_congr_left fun i _ => ?_
            show buf (0 + i) = buf i
            rw [Nat.zero_add]
    · rw [hoff]
      show 0 + out.length = out.length
      rw [Nat.zero_add]

/-- Witness for C1: on a fresh queue of naturals, pushing value 5 with
sequence number 0 and popping returns value 5, the one recorded for the
front offset. -/
theorem sorted_queue_delivers_in_ascending_order_witness :
    (fun m => if m = 0 then some 5 else (none : Option Nat))
        ((SortedQueue.init : SortedQueue Nat).push 5 0).offset = some 5 :=
  (sorted_queue_delivers_in_ascending_order.1
    (fun m => if m = 0 then some 5 else none)
    ((SortedQueue.init : SortedQueue Nat).push 5 0)
    5 ⟨[default], 1⟩
    (Reach.step_push Reach.base rfl (by decide))
    (by decide)).1

/-- C3: in every reachable state, `empty()` is true exactly when the slot
at the current front offset has not been filled by a push — even when
later slots are filled — under the contract that no real pushed value
compares equal to the default-constructed sentinel. -/
theorem sorted_queue_empty_iff_front_unfilled {T : Type} [DecidableEq T] [Inhabited T] :
    ∀ (f : Nat → Option T) (s : SortedQueue T), Reach f s →
      (s.empty = true ↔ f s.offset = none) := by
  intro f s h
  have hm := reach_models h
  have hslot := hm.2.2 s.offset (le_refl _)
  rw [Nat.sub_self] at hslot
  cases hf : f s.offset with
  | none =>
    rw [hf] at hslot
    simp only [SortedQueue.empty, SortedQueue.empty_intern, headD_eq_getD, hslot]
    simp
  | some w =>
    have hw : w ≠ default := fun hc => hm.2.1 s.offset (by rw [hf, hc])
    rw [hf] at hslot
    simp only [SortedQueue.empty, SortedQueue.empty_intern, headD_eq_getD, hslot]
    simp [hw]

/-- Witness for C3: a fresh queue is empty and its front number 0 was
never pushed. -/
theorem sorted_queue_empty_iff_front_unfilled_witness :
    ((SortedQueue.init : SortedQueue Nat).empty = true) ↔
      ((fun _ => (none : Option Nat)) (SortedQueue.init : SortedQueue Nat).offset = none) :=
  sorted_queue_empty_iff_front_unfilled _ _ Reach.base

/-- C10: every state reachable by pushes with fresh (monotonically
assigned) sequence numbers and non-default values and by successful pops
keeps at least one slot in the deque — the constructor makes one sentinel
slot and push resizes to relative index plus two, always sparing an empty
slot past the highest filled index — so the front-slot sentinel tests of
empty(), try_pop() and wait_and_pop() never touch the front of an empty
deque. -/
theorem sorted_queue_deque_never_empty {T : Type} [DecidableEq T] [Inhabited T] :
    ∀ (f : Nat → Option T) (s : SortedQueue T), Reach f s →
      s.queue ≠ [] ∧ 1 ≤ s.size := by
  intro f s h
  obtain ⟨hpos, _⟩ := reach_spare h
  exact ⟨List.length_pos.mp hpos, hpos⟩

/-- Witness for C10: the freshly constructed queue has its one sentinel
slot. -/
theorem sorted_queue_deque_never_empty_witness :
    (SortedQueue.init : SortedQueue Nat).queue ≠ [] ∧
      1 ≤ (SortedQueue.init : SortedQueue Nat).size :=
  sorted_queue_deque_never_empty _ _ Reach.base

/-- C2: parse_osm_data stamps the N data blobs with sequence numbers
0..N-1 in file order; whatever order the decoder workers deliver them in,
the N buffers reach the consumer in exactly that ascending sequence-number
order (one per data blob), after which next_buffer with the reader done
and no pending jobs returns a default-constructed, empty Buffer; and any
completed schedule hands out buffers only as the ascending prefix of the
blob order. -/
theorem pbf_reader_buffers_in_file_order {T : Type} [DecidableEq T] [Inhabited T]
    (N : Nat) (buf : Nat → T) (hbuf : ∀ i, i < N → buf i ≠ default) :
    parse_osm_data_nums N = List.range N ∧
    (∀ order : List Nat, order.Perm (parse_osm_data_nums N) →
      ∃ s' : SortedQueue T,
        runEvents buf (order.map Ev.push ++ List.replicate N Ev.pop) SortedQueue.init
          = some (s', (List.range N).map buf) ∧
        (next_buffer true 0 s').1 = default) ∧
    (∀ (evs : List Ev) (s' : SortedQueue T) (out : List T),
      (pushNums evs).Nodup → (∀ n ∈ pushNums evs, n < N) →
      runEvents buf evs SortedQueue.init = some (s', out) →
      out = (List.range out.length).map buf) := by
  refine ⟨parse_osm_data_nums_eq_range N, ?_, ?_⟩
  · intro order hperm
    rw [parse_osm_data_nums_eq_range] at hperm
    have hnd : order.Nodup := hperm.nodup_iff.mpr (List.nodup_range N)
    have hmem : ∀ n, n ∈ order ↔ n < N := fun n => by
      rw [hperm.mem_iff, List.mem_range]
    have hfresh : ∀ n ∈ order, (fun _ => (none : Option T)) n = none ∧ buf n ≠ default :=
      fun n hn => ⟨rfl, hbuf n ((hmem n).mp hn)⟩
    obtain ⟨f', s1, hrun1, hreach1, hoff1, hmap⟩ :=
      runEvents_pushes buf order _ _ Reach.base hnd hfresh
    have hoff0 : s1.offset = 0 := hoff1
    have hvals : ∀ i, i < N → f' (s1.offset + i) = some (buf (s1.offset + i)) := by
      intro i hi
      rw [hoff0, Nat.zero_add, hmap i, if_pos ((hmem i).mpr hi)]
    obtain ⟨s', hrun2, _, _⟩ := runEvents_pops buf N f' s1 hreach1 hvals
    have hcomp := runEvents_append buf _ _ _ _ _ hrun1 _ _ hrun2
    rw [List.nil_append] at hcomp
    have hmapeq : (List.range N).map (fun i => buf (s1.offset + i)) = (List.range N).map buf :=
      List.map_congr_left fun i _ => by rw [hoff0, Nat.zero_add]
    rw [hmapeq] at hcomp
    exact ⟨s', hcomp, rfl⟩
  · intro evs s' out hnd hlt hrun
    obtain ⟨hout, _⟩ := runEvents_sound buf evs (fun _ => none) _ s' out
      Reach.base (fun m v h => by cases h) hnd (fun n hn => ⟨rfl, hbuf n (hlt n hn)⟩) hrun
    calc out = (List.range out.length).map
          (fun i => buf ((SortedQueue.init : SortedQueue T).offset + i)) := hout
      _ = (List.range out.length).map buf := by
          refine List.map_congr_left fun i _ => ?_
          show buf (0 + i) = buf i
          rw [Nat.zero_add]

/-- Witness for C2: with two data blobs carrying non-empty buffers, the
loop assigns numbers [0, 1]. -/
theorem pbf_reader_buffers_in_file_order_witness :
    parse_osm_data_nums 2 = List.range 2 :=
  (pbf_reader_buffers_in_file_order (T := Nat) 2 (fun n => n + 1)
    (fun i _ => Nat.succ_ne_zero i)).1

/-- C4: dense tag decoding consumes keys_vals with one cursor shared across
the nodes of a group; a node whose next index is the 0 sentinel gets no
tags and the cursor advances past the 0; and on keys_vals
[1,2,0,0,3,4,0] with stringtable ["","a","b","c","d"], node 0 gets exactly
tag a→b, node 1 no tags, node 2 exactly tag c→d. -/
theorem dense_tags_shared_cursor :
    (∀ (kv : List Int) (n : Nat), n < kv.length → kv.getD n 0 = 0 →
      add_tags kv n = ([], n + 1)) ∧
    ((dense_tags [1, 2, 0, 0, 3, 4, 0] 3 0).map (tag_strings ["", "a", "b", "c", "d"]) =
      [[("a", "b")], [], [("c", "d")]]) := by
  constructor
  · intro kv n hlt h0
    unfold add_tags
    rw [if_neg (by omega), if_pos h0]
  · simp [dense_tags, add_tags, add_tags_loop, tag_strings, List.getD]

/-- Witness for C4: a lone 0 sentinel yields no tags and moves the cursor
past it. -/
theorem dense_tags_shared_cursor_witness :
    add_tags [0] 0 = ([], 1) :=
  dense_tags_shared_cursor.1 [0] 0 (by decide) (by decide)

/-- C5: a decoded node (plain or dense) with visible = false keeps the
undefined Location; visibility defaults to true whenever the
info/denseinfo visible field is absent, in which case the location is set
from the PBF coordinates. -/
theorem invisible_node_location_undefined :
    (∀ (info : Option PbfInfo) (g lo la x y : Int),
      decoded_visible info = false → decoded_node_location info g lo la x y = none) ∧
    (∀ (inf : PbfInfo) (g lo la x y : Int), inf.visible = none →
      decoded_visible (some inf) = true ∧
      decoded_node_location (some inf) g lo la x y =
        some (coordinate g lo x, coordinate g la y)) ∧
    (∀ (g lo la x y : Int),
      decoded_visible none = true ∧
      decoded_node_location none g lo la x y =
        some (coordinate g lo x, coordinate g la y)) ∧
    (∀ (di : Option DenseInfoCols) (i : Nat) (g lo la x y : Int),
      dense_visible di i = false → dense_node_location di i g lo la x y = none) ∧
    (∀ (i : Nat) (g lo la x y : Int),
      dense_visible none i = true ∧
      dense_node_location none i g lo la x y =
        some (coordinate g lo x, coordinate g la y)) ∧
    (∀ (di : DenseInfoCols) (i : Nat) (g lo la x y : Int), di.visible = [] →
      dense_visible (some di) i = true ∧
      dense_node_location (some di) i g lo la x y =
        some (coordinate g lo x, coordinate g la y)) := by
  refine ⟨?_, ?_, ?_, ?_, ?_, ?_⟩
  · intro info g lo la x y hvis
    simp [decoded_node_location, hvis]
  · intro inf g lo la x y habs
    have hvis : decoded_visible (some inf) = true := by
      simp [decoded_visible, habs]
    exact ⟨hvis, by simp [decoded_node_location, hvis]⟩
  · intro g lo la x y
    exact ⟨rfl, by simp [decoded_node_location, decoded_visible]⟩
  · intro di i g lo la x y hvis
    simp [dense_node_location, hvis]
  · intro i g lo la x y
    exact ⟨rfl, by simp [dense_node_location, dense_visible]⟩
  · intro di i g lo la x y habs
    have hvis : dense_visible (some di) i = true := by
      simp [dense_visible, habs]
    exact ⟨hvis, by simp [dense_node_location, hvis]⟩

/-- Witness for C5: a node whose info says visible=false decodes with no
location. -/
theorem invisible_node_location_undefined_witness :
    decoded_node_location (some ⟨1, 2, 3, 4, 5, some false⟩) 100 0 0 7 8 = none :=
  invisible_node_location_undefined.1 (some ⟨1, 2, 3, 4, 5, some false⟩) 100 0 0 7 8 rfl

/-- C6 counterexample: the claim quantifies over every date_granularity
below 1000, but date_granularity is a protobuf int32 and C++ integer
division truncates toward zero, so at date_granularity = -1000 (< 1000)
the factor is -1, not 0, and a PBF timestamp of 5 decodes to -5, not 0. -/
theorem timestamp_date_factor_counterexample :
    (-1000 : Int) < 1000 ∧ date_factor (-1000) = -1 ∧
      decode_timestamp (-1000) 5 = -5 ∧ decode_timestamp (-1000) 5 ≠ 0 := by
  decide

/-- C6 amended: the stored timestamp is the PBF timestamp times the factor
date_granularity / 1000 computed with (truncating) integer division; for
the standard granularity 1000 the factor is 1; and for any
date_granularity at least 0 and below 1000 the factor floors to zero, so
every timestamp decodes to 0. -/
theorem timestamp_decode_factor :
    (∀ dg ts : Int, decode_timestamp dg ts = ts * Int.tdiv dg 1000) ∧
    date_factor 1000 = 1 ∧
    (∀ dg ts : Int, 0 ≤ dg → dg < 1000 → decode_timestamp dg ts = 0) := by
  refine ⟨fun dg ts => rfl, by decide, ?_⟩
  intro dg ts h0 hlt
  have hfac : date_factor dg = 0 := Int.tdiv_eq_zero_of_lt h0 hlt
  rw [decode_timestamp, hfac, mul_zero]

/-- Witness for C6 (amended): granularity 500 is in [0, 1000), so a
timestamp of 123456 decodes to 0. -/
theorem timestamp_decode_factor_witness :
    decode_timestamp 500 123456 = 0 :=
  timestamp_decode_factor.2.2 500 123456 (by decide) (by decide)

/-- C7: a Blob with raw bytes passes them through unchanged; zlib data
must inflate successfully to exactly raw_size bytes, any zlib failure or
size mismatch being a fatal error; lzma data fails as unsupported; a Blob
with none of the three is a fatal error; and every failure produces an
error, never a payload for the block parser. -/
theorem blob_payload_decode_cases :
    (∀ (inflate : List Nat → Option (List Nat)) (b : Blob) (d : List Nat),
      b.raw = some d → blob_decode inflate b = Except.ok d) ∧
    (∀ (inflate : List Nat → Option (List Nat)) (b : Blob) (z d : List Nat),
      b.raw = none → b.zlib_data = some z → inflate z = some d →
      (d.length : Int) = b.raw_size → blob_decode inflate b = Except.ok d) ∧
    (∀ (inflate : List Nat → Option (List Nat)) (b : Blob) (z d : List Nat),
      b.raw = none → b.zlib_data = some z → inflate z = some d →
      (d.length : Int) ≠ b.raw_size →
      blob_decode inflate b = Except.error BlobError.zlibError) ∧
    (∀ (inflate : List Nat → Option (List Nat)) (b : Blob) (z : List Nat),
      b.raw = none → b.zlib_data = some z → inflate z = none →
      blob_decode inflate b = Except.error BlobError.zlibError) ∧
    (∀ (inflate : List Nat → Option (List Nat)) (b : Blob) (l : List Nat),
      b.raw = none → b.zlib_data = none → b.lzma_data = some l →
      blob_decode inflate b = Except.error BlobError.lzmaUnsupported) ∧
    (∀ (inflate : List Nat → Option (List Nat)) (b : Blob),
      b.raw = none → b.zlib_data = none → b.lzma_data = none →
      blob_decode inflate b = Except.error BlobError.noData) := by
  refine ⟨?_, ?_, ?_, ?_, ?_, ?_⟩
  · intro inflate b d h1
    simp [blob_decode, h1]
  · intro inflate b z d h1 h2 h3 h4
    simp [blob_decode, h1, h2, h3, h4]
  · intro inflate b z d h1 h2 h3 h4
    simp [blob_decode, h1, h2, h3, h4]
  · intro inflate b z h1 h2 h3
    simp [blob_decode, h1, h2, h3]
  · intro inflate b l h1 h2 h3
    simp [blob_decode, h1, h2, h3]
  · intro inflate b h1 h2 h3
    simp [blob_decode, h1, h2, h3]

/-- Witness for C7: a raw blob passes its two bytes through. -/
theorem blob_payload_decode_cases_witness :
    blob_decode (fun _ => none) ⟨some [1, 2], none, 0, none⟩ = Except.ok [1, 2] :=
  blob_payload_decode_cases.1 (fun _ => none) ⟨some [1, 2], none, 0, none⟩ [1, 2] rfl

/-- C8: the required-features check accepts exactly OsmSchema-V0.6 (no
effect), DenseNodes (sets pbf_has_dense_nodes) and HistoricalInformation
(sets has_multiple_object_versions); any other required feature is a
fatal error and no Header value is produced. -/
theorem required_features_check :
    ∀ (fs : List String) (h : Header),
      ((∀ f ∈ fs, f ∈ supported_features) →
        apply_required_features fs h = Except.ok
          ⟨h.pbf_has_dense_nodes || decide ("DenseNodes" ∈ fs),
           h.has_multiple_object_versions || decide ("HistoricalInformation" ∈ fs)⟩) ∧
      ((∃ f ∈ fs, f ∉ supported_features) →
        ∃ e, apply_required_features fs h = Except.error e) := by
  intro fs
  induction fs with
  | nil =>
    intro h
    constructor
    · intro _
      simp [apply_required_features]
    · intro hex
      obtain ⟨f, hf, _⟩ := hex
      cases hf
  | cons f fs ih =>
    intro h
    constructor
    · intro hall
      have hf : f ∈ supported_features := hall f (List.mem_cons_self f fs)
      have hrest : ∀ g ∈ fs, g ∈ supported_features :=
        fun g hg => hall g (List.mem_cons_of_mem f hg)
      simp only [supported_features, List.mem_cons, List.mem_singleton,
        List.not_mem_nil, or_false] at hf
      rcases hf with hf | hf | hf <;> subst hf <;>
        simp [apply_required_features, (ih _).1 hrest, List.mem_cons]
    · intro hex
      obtain ⟨g, hg, hbad⟩ := hex
      rcases List.mem_cons.mp hg with hgf | hgfs
      · subst hgf
        have h1 : g ≠ "OsmSchema-V0.6" := by
          intro hc
          exact hbad (by rw [hc]; simp [supported_features])
        have h2 : g ≠ "DenseNodes" := by
          intro hc
          exact hbad (by rw [hc]; simp [supported_features])
        have h3 : g ≠ "HistoricalInformation" := by
          intro hc
          exact hbad (by rw [hc]; simp [supported_features])
        refine ⟨g, ?_⟩
        simp [apply_required_features, h1, h2, h3]
      · by_cases h1 : f = "OsmSchema-V0.6"
        · subst h1
          obtain ⟨e, he⟩ := (ih h).2 ⟨g, hgfs, hbad⟩
          exact ⟨e, by simp [apply_required_features, he]⟩
        · by_cases h2 : f = "DenseNodes"
          · subst h2
            obtain ⟨e, he⟩ := (ih { h with pbf_has_dense_nodes := true }).2 ⟨g, hgfs, hbad⟩
            exact ⟨e, by simp [apply_required_features, he]⟩
          · by_cases h3 : f = "HistoricalInformation"
            · subst h3
              obtain ⟨e, he⟩ :=
                (ih { h with has_multiple_object_versions := true }).2 ⟨g, hgfs, hbad⟩
              exact ⟨e, by simp [apply_required_features, he]⟩
            · exact ⟨f, by simp [apply_required_features, h1, h2, h3]⟩

/-- Witness for C8: HistoricalInformation alone is accepted and flips
has_multiple_object_versions on a fresh header. -/
theorem required_features_check_witness :
    apply_required_features ["HistoricalInformation"] ⟨false, false⟩ =
      Except.ok
        ⟨false || decide ("DenseNodes" ∈ ["HistoricalInformation"]),
         false || decide ("HistoricalInformation" ∈ ["HistoricalInformation"])⟩ :=
  (required_features_check ["HistoricalInformation"] ⟨false, false⟩).1 (by decide)

/-- C9: a Writer in status okay stays okay on a successful write; an
encoder/compressor failure during a write moves it to error with the
exception surfaced and nothing written; a write attempted in status
closed or error is rejected with the AlreadyFailed io_error and the whole
state — status and output — is unchanged; close from okay ends in closed
(success) or error (flush failure), and close in any other status changes
nothing. -/
theorem writer_status_transitions :
    (∀ (s : WriterState) (c : Nat), s.status = WStatus.okay →
      (writer_write s c true).1.status = WStatus.okay ∧ (writer_write s c true).2 = none) ∧
    (∀ (s : WriterState) (c : Nat), s.status = WStatus.okay →
      (writer_write s c false).1.status = WStatus.error ∧
        (writer_write s c false).2 = some WriteError.outputFailed ∧
        (writer_write s c false).1.written = s.written) ∧
    (∀ (s : WriterState) (c : Nat) (ok : Bool), s.status ≠ WStatus.okay →
      writer_write s c ok = (s, some WriteError.alreadyFailed)) ∧
    (∀ (s : WriterState) (ok : Bool), s.status = WStatus.okay →
      ((writer_close s ok).1.status = WStatus.closed ∧ (writer_close s ok).2 = none) ∨
      ((writer_close s ok).1.status = WStatus.error ∧
        (writer_close s ok).2 = some WriteError.outputFailed)) ∧
    (∀ (s : WriterState) (ok : Bool), s.status ≠ WStatus.okay →
      writer_close s ok = (s, none)) := by
  refine ⟨?_, ?_, ?_, ?_, ?_⟩
  · intro s c hok
    have hne : ¬ s.status ≠ WStatus.okay := fun hcon => hcon hok
    unfold writer_write
    rw [if_neg hne, if_pos rfl]
    constructor
    · show (if 0 < c then { s with written := s.written ++ [c] } else s).status = WStatus.okay
      by_cases hc : 0 < c
      · rw [if_pos hc]
        exact hok
      · rw [if_neg hc]
        exact hok
    · rfl
  · intro s c hok
    simp [writer_write, hok]
  · intro s c ok hnot
    simp [writer_write, hnot]
  · intro s ok hok
    simp only [writer_close, hok, if_pos rfl]
    by_cases hp : 0 < s.pending
    · rw [if_pos hp]
      cases ok with
      | true => left; exact ⟨rfl, rfl⟩
      | false => right; exact ⟨rfl, rfl⟩
    · rw [if_neg hp]
      left
      exact ⟨rfl, rfl⟩
  · intro s ok hnot
    simp [writer_close, hnot]

/-- Witness for C9: writing to an already-closed writer is rejected with
AlreadyFailed and leaves the writer untouched. -/
theorem writer_status_transitions_witness :
    writer_write ⟨WStatus.closed, 0, [7]⟩ 5 true =
      (⟨WStatus.closed, 0, [7]⟩, some WriteError.alreadyFailed) :=
  writer_status_transitions.2.2.1 ⟨WStatus.closed, 0, [7]⟩ 5 true (by decide)

end ClaimTheorems

end Osmium
